import Mathlib

/-!
Shallow embedding of `react-environment-interface` (src/index.tsx).

The module exports two independent components:

* an emitter factory `createEmitter` whose emitters keep a mutable array
  `listeners`, with
  - `emit(event) { listeners.forEach((listener) => listener(event)) }`
  - `subscribe(listener) { listeners.push(listener);
       return () => { listeners.splice(listeners.indexOf(listener), 1) } }`

* an environment factory `defineEnvironment` producing
  - `environmentContext = React.createContext(null as unknown as T)`
  - `useEnvironment = () => React.useContext(environmentContext)`
  - `createEnvironment = (constr: () => T) => constr()`
  - an `EnvironmentProvider` wrapping `environmentContext.Provider`.

Listener references are modelled as values of an arbitrary type with
decidable equality (JavaScript `===` on function references becomes `=`).
The listener array is a `List`.  JavaScript's `Array.prototype.indexOf`
and `Array.prototype.splice` are embedded with their ECMAScript
semantics, in particular `indexOf` returning `-1` on a miss and
`splice` clamping a negative start index to `length + start`.
-/

namespace EnvInterface

/-- ECMAScript `Array.prototype.indexOf`: index of the first occurrence of
`a` (strict equality), or `-1` when `a` does not occur. -/
def jsIndexOf {α : Type} [DecidableEq α] : List α → α → Int
  | [], _ => -1
  | x :: xs, a =>
    if x = a then 0
    else
      let r := jsIndexOf xs a
      if r < 0 then -1 else r + 1

/-- ECMAScript `Array.prototype.splice(i, 1)`: remove one element starting
at `i`, where a negative `i` counts from the end (clamped at `0`) and an
`i` past the end removes nothing. -/
def jsSplice1 {α : Type} (xs : List α) (i : Int) : List α :=
  let start : Nat := if i < 0 then (max ((xs.length : Int) + i) 0).toNat
                     else min i.toNat xs.length
  xs.take start ++ xs.drop (start + 1)

/-- Body of `subscribe(listener)`: `listeners.push(listener)`. -/
def subscribe {α : Type} (xs : List α) (l : α) : List α := xs ++ [l]

/-- The disposer returned by `subscribe(listener)`:
`listeners.splice(listeners.indexOf(listener), 1)` on the current
listener array. -/
def dispose {α : Type} [DecidableEq α] (xs : List α) (l : α) : List α :=
  jsSplice1 xs (jsIndexOf xs l)

/-!
The body of `emit(event)` is `listeners.forEach((listener) => listener(event))`.
ECMAScript `forEach` captures the array length once at the start, then
for `k = 0, …, len-1` invokes the callback on the element at index `k`
of the *live* array whenever that index still exists (`splice` keeps the
array dense, so existence is `k < length`).  A listener body may in turn
mutate the listener array (by calling disposers or `subscribe`) or throw.

A listener's behaviour is a function `beh : α → List α → Option (List α)`:
given the invoked listener and the current listener array it returns
`some` of the mutated array, or `none` when the listener throws (in which
case `forEach` — and hence `emit` — aborts and the exception propagates
to the caller of `emit`).

`emitGo beh e n k xs tr` is the loop with `n` iterations left, current
index `k`, live array `xs` and invocation trace `tr` (each entry records
the listener invoked and the event it was passed).  The result is the
final array, the trace, and whether an exception escaped `emit`.
-/

def emitGo {α ε : Type} (beh : α → List α → Option (List α)) (e : ε) :
    Nat → Nat → List α → List (α × ε) → List α × List (α × ε) × Bool
  | 0, _, xs, tr => (xs, tr, false)
  | n + 1, k, xs, tr =>
    if h : k < xs.length then
      let l := xs.get ⟨k, h⟩
      match beh l xs with
      | none => (xs, tr ++ [(l, e)], true)
      | some xs' => emitGo beh e n (k + 1) xs' (tr ++ [(l, e)])
    else emitGo beh e n (k + 1) xs tr

/-- Full `emit(event)`: `forEach` over the listener array, starting at
index `0` with the initially captured length. -/
def emit {α ε : Type} (beh : α → List α → Option (List α)) (e : ε)
    (xs : List α) : List α × List (α × ε) × Bool :=
  emitGo beh e xs.length 0 xs []

/-- The behaviour of listeners that neither mutate the listener array nor
throw (no disposal and no subscription happens during the emission). -/
def behInert {α : Type} : α → List α → Option (List α) := fun _ xs => some xs

/-- The behaviour of pure listeners of which some throw: `throws l = true`
means invoking `l` raises an exception. -/
def behThrow {α : Type} (throws : α → Bool) : α → List α → Option (List α) :=
  fun l xs => if throws l then none else some xs

/-- Behaviour in which listener `0`'s callback invokes listener `0`'s own
disposer (as a React effect cleanup triggered by the event would), while
every other listener leaves the array alone. -/
def behSelfDispose : Nat → List Nat → Option (List Nat) :=
  fun l xs => if l = 0 then some (dispose xs 0) else some xs

/-- Reference run of `emit` over pure listeners of which some may throw:
the invocation trace and whether an exception escaped, listener by
listener in order, stopping at the first thrower. -/
def emitThrowTrace {α ε : Type} (throws : α → Bool) (e : ε) :
    List α → List (α × ε) × Bool
  | [] => ([], false)
  | l :: ls =>
    if throws l then ([(l, e)], true)
    else ((l, e) :: (emitThrowTrace throws e ls).1,
          (emitThrowTrace throws e ls).2)

/-- Events are application-defined tagged values `{ type: string }` with a
discriminant field (interface `IEvent`). -/
structure Event : Type where
  type : String
deriving DecidableEq

/-- A concrete event, the README's `{ type: "VISIBLE" }`. -/
def visibleEvent : Event := ⟨"VISIBLE"⟩

/-- Embedding of `createEnvironment = (constr: () => T) => constr()`:
invoke the caller-supplied zero-argument factory and return its result
unchanged.  A factory that may throw is embedded with `ρ := Except ε τ`. -/
def createEnvironment {ρ : Type} (constr : Unit → ρ) : ρ := constr ()

/-- State-transformer embedding of the same source line
`createEnvironment = (constr: () => T) => constr()`, for reasoning about
the factory's side effects: an effectful factory is a state transformer
`σ → σ × τ`, and `createEnvironment` applies it to the caller's state. -/
def createEnvironmentSt {σ τ : Type} (constr : σ → σ × τ) : σ → σ × τ :=
  fun s => constr s

/-- Model of a React context object as created by
`React.createContext(default)`: it carries its default value, returned by
`useContext` at call sites with no enclosing Provider. -/
structure ReactContext (τ : Type) : Type where
  defaultValue : τ

/-- Embedding of `environmentContext = React.createContext(null as unknown as T)`.
Values of the TypeScript type `T` as seen through that cast are `Option τ`,
with `none` standing for `null` — never a valid environment. -/
def environmentContext (τ : Type) : ReactContext (Option τ) := ⟨none⟩

/-- Model of `React.useContext`: given the stack of enclosing Provider
values for the context (innermost first), return the nearest enclosing
Provider's value, or the context's default when no Provider encloses the
call site; `useContext` never throws. -/
def useContext {τ : Type} (ctx : ReactContext τ) (providers : List τ) : τ :=
  providers.headD ctx.defaultValue

/-- Embedding of `useEnvironment = () => React.useContext(environmentContext)`. -/
def useEnvironment (τ : Type) (providers : List (Option τ)) : Option τ :=
  useContext (environmentContext τ) providers

/-- Model of `EnvironmentProvider`, which wraps
`environmentContext.Provider`: rendering a subtree under a Provider with
environment value `v` pushes `some v` onto the subtree's provider stack. -/
def provideEnvironment {τ : Type} (v : τ) (providers : List (Option τ)) :
    List (Option τ) :=
  some v :: providers

/-! ## Lemmas about the disposer -/

theorem jsIndexOf_of_not_mem {α : Type} [DecidableEq α] {xs : List α} {l : α}
    (h : l ∉ xs) : jsIndexOf xs l = -1 := by
  induction xs with
  | nil => rfl
  | cons x xs ih =>
    have hx : ¬ x = l := fun hxl => h (hxl ▸ List.mem_cons_self x xs)
    have ht : l ∉ xs := fun hm => h (List.mem_cons_of_mem x hm)
    simp [jsIndexOf, hx, ih ht]

theorem jsIndexOf_nonneg_of_mem {α : Type} [DecidableEq α] {xs : List α}
    {l : α} (h : l ∈ xs) : 0 ≤ jsIndexOf xs l := by
  induction xs with
  | nil => cases h
  | cons x xs ih =>
    by_cases hx : x = l
    · simp [jsIndexOf, hx]
    · have ht : l ∈ xs := by
        rcases List.mem_cons.mp h with h1 | h1
        · exact absurd h1.symm hx
        · exact h1
      have hr := ih ht
      simp only [jsIndexOf, hx, if_false]
      omega

theorem dispose_cons_self {α : Type} [DecidableEq α] (l : α) (xs : List α) :
    dispose (l :: xs) l = xs := by
  simp [dispose, jsIndexOf, jsSplice1]

theorem jsSplice1_cons_succ {α : Type} (x : α) (xs : List α) (r : Int)
    (hr : 0 ≤ r) : jsSplice1 (x :: xs) (r + 1) = x :: jsSplice1 xs r := by
  have h1 : ¬ r + 1 < 0 := by omega
  have h2 : ¬ r < 0 := by omega
  have h3 : (r + 1).toNat = r.toNat + 1 := by omega
  simp only [jsSplice1, h1, h2, if_false, h3, List.length_cons,
    Nat.succ_min_succ, List.take_succ_cons, List.drop_succ_cons,
    List.cons_append]

theorem dispose_cons_of_ne {α : Type} [DecidableEq α] {x l : α}
    (hx : x ≠ l) {xs : List α} (hm : l ∈ xs) :
    dispose (x :: xs) l = x :: dispose xs l := by
  have hr : 0 ≤ jsIndexOf xs l := jsIndexOf_nonneg_of_mem hm
  have hneg : ¬ jsIndexOf xs l < 0 := by omega
  simp only [dispose, jsIndexOf, hx, if_false, hneg]
  exact jsSplice1_cons_succ x xs (jsIndexOf xs l) hr

theorem dispose_of_mem {α : Type} [DecidableEq α] {xs : List α} {l : α}
    (h : l ∈ xs) : dispose xs l = xs.erase l := by
  induction xs with
  | nil => cases h
  | cons x xs ih =>
    by_cases hx : x = l
    · subst hx
      rw [dispose_cons_self, List.erase_cons_head]
    · have ht : l ∈ xs := by
        rcases List.mem_cons.mp h with h1 | h1
        · exact absurd h1.symm hx
        · exact h1
      rw [dispose_cons_of_ne hx ht, ih ht, List.erase_cons_tail]
      simp [fun hlx : x = l => hx hlx]

theorem dispose_of_not_mem {α : Type} [DecidableEq α] {xs : List α} {l : α}
    (h : l ∉ xs) : dispose xs l = xs.dropLast := by
  rw [dispose, jsIndexOf_of_not_mem h]
  cases xs with
  | nil => rfl
  | cons x xs =>
    have h1 : ((-1 : Int) < 0) = True := by simp
    have h2 : (max (((x :: xs).length : Int) + (-1)) 0).toNat
        = (x :: xs).length - 1 := by
      simp only [List.length_cons]
      omega
    simp only [jsSplice1, h1, if_true, h2]
    have h3 : (x :: xs).length - 1 + 1 = (x :: xs).length := by
      simp only [List.length_cons]
      omega
    rw [List.dropLast_eq_take, h3, List.drop_length, List.append_nil]

/-! ## Lemmas about the emit loop -/

theorem foldl_subscribe {α : Type} (acc ls : List α) :
    List.foldl subscribe acc ls = acc ++ ls := by
  induction ls generalizing acc with
  | nil => simp
  | cons x xs ih => simp [List.foldl_cons, subscribe, ih]

theorem emitGo_inert {α ε : Type} (e : ε) (n : Nat) :
    ∀ (k : Nat) (xs : List α) (tr : List (α × ε)), n + k = xs.length →
      emitGo behInert e n k xs tr
        = (xs, tr ++ (xs.drop k).map (fun l => (l, e)), false) := by
  induction n with
  | zero =>
    intro k xs tr h
    have hk : xs.length ≤ k := by omega
    rw [List.drop_eq_nil_of_le hk]
    simp [emitGo]
  | succ n ih =>
    intro k xs tr h
    have hlt : k < xs.length := by omega
    have hdrop : xs[k] :: xs.drop (k + 1) = xs.drop k :=
      List.getElem_cons_drop xs k hlt
    simp only [emitGo, hlt, dif_pos, behInert, List.get_eq_getElem]
    rw [ih (k + 1) xs (tr ++ [(xs[k], e)]) (by omega), ← hdrop, List.map_cons,
      List.append_assoc, List.singleton_append]

theorem emitGo_behThrow {α ε : Type} (throws : α → Bool) (e : ε) (n : Nat) :
    ∀ (k : Nat) (xs : List α) (tr : List (α × ε)), n + k = xs.length →
      emitGo (behThrow throws) e n k xs tr
        = (xs, tr ++ (emitThrowTrace throws e (xs.drop k)).1,
            (emitThrowTrace throws e (xs.drop k)).2) := by
  induction n with
  | zero =>
    intro k xs tr h
    have hk : xs.length ≤ k := by omega
    rw [List.drop_eq_nil_of_le hk]
    simp [emitGo, emitThrowTrace]
  | succ n ih =>
    intro k xs tr h
    have hlt : k < xs.length := by omega
    have hdrop : xs[k] :: xs.drop (k + 1) = xs.drop k :=
      List.getElem_cons_drop xs k hlt
    simp only [emitGo, hlt, dif_pos, behThrow, List.get_eq_getElem]
    by_cases hth : throws xs[k] = true
    · rw [if_pos hth, ← hdrop]
      simp [emitThrowTrace, hth]
    · rw [if_neg hth]
      show emitGo (behThrow throws) e n (k + 1) xs (tr ++ [(xs[k], e)])
        = (xs, tr ++ (emitThrowTrace throws e (xs.drop k)).1,
            (emitThrowTrace throws e (xs.drop k)).2)
      rw [ih (k + 1) xs (tr ++ [(xs[k], e)]) (by omega), ← hdrop]
      simp [emitThrowTrace, hth, List.append_assoc]

theorem emitThrowTrace_append {α ε : Type} (throws : α → Bool) (e : ε)
    (pre : List α) (t : α) (post : List α)
    (hpre : ∀ l ∈ pre, throws l = false) (ht : throws t = true) :
    emitThrowTrace throws e (pre ++ t :: post)
      = ((pre.map fun l => (l, e)) ++ [(t, e)], true) := by
  induction pre with
  | nil => simp [emitThrowTrace, ht]
  | cons x xs ih =>
    have hx : throws x = false := hpre x (List.mem_cons_self x xs)
    have hxs : ∀ l ∈ xs, throws l = false :=
      fun l hl => hpre l (List.mem_cons_of_mem x hl)
    simp [emitThrowTrace, hx, ih hxs]

/-! ## Claim theorems -/

/-- C1 (claim refuted — code bug): invoking a disposer a second time,
after its listener was already removed, is NOT a no-op when other
listeners remain.  With listeners `a = 0` and `b = 1`, the first
invocation of a's disposer leaves `[1]`; the second invocation scans for
`0`, `indexOf` returns `-1`, and `splice(-1, 1)` removes the LAST
listener, leaving `[]` — it silently removed `b`. -/
theorem double_dispose_removes_last_listener :
    dispose [0, 1] 0 = [1] ∧ dispose (dispose [0, 1] 0) 0 = [] := by decide

/-- C2: for every sequence of `subscribe` calls followed by one `emit(e)`
with no disposals during the emission, every currently-subscribed
listener is invoked exactly once, in subscription order, each time with
the same event `e`, and the listener sequence is left unchanged. -/
theorem emit_invokes_subscribers_in_order {α ε : Type} (ls : List α) (e : ε) :
    emit behInert e (List.foldl subscribe [] ls)
      = (ls, ls.map fun l => (l, e), false) := by
  have hls : List.foldl subscribe [] ls = ls := by
    rw [foldl_subscribe]
    simp
  rw [hls]
  simp only [emit]
  rw [emitGo_inert e ls.length 0 ls [] (by omega)]
  simp

/-- C3 (claim refuted — code bug): a disposal during an in-progress emit
does affect that delivery pass.  With listeners `[0, 1]` where listener
`0`'s callback invokes its own disposer, `forEach` over the live array
invokes listener `0` only: listener `1`, subscribed when the emit began,
is skipped, because the removal shifted it down to the already-visited
index `0`. -/
theorem dispose_during_emit_skips_listener :
    emit behSelfDispose visibleEvent [0, 1]
        = ([1], [(0, visibleEvent)], false)
    ∧ (1 : Nat) ∈ [0, 1]
    ∧ (1, visibleEvent) ∉ (emit behSelfDispose visibleEvent [0, 1]).2.1 := by
  decide

/-- C4: if some listener throws during delivery, `emit` does not catch or
suppress it: the exception propagates to emit's caller (final flag
`true`), every listener subscribed before the throwing one has already
been invoked in subscription order with the event, the throwing listener
itself was invoked, and no listener after it is invoked in that pass. -/
theorem emit_listener_throw_aborts_pass {α ε : Type} (throws : α → Bool)
    (e : ε) (pre : List α) (t : α) (post : List α)
    (hpre : ∀ l ∈ pre, throws l = false) (ht : throws t = true) :
    emit (behThrow throws) e (pre ++ t :: post)
      = (pre ++ t :: post, (pre.map fun l => (l, e)) ++ [(t, e)], true) := by
  simp only [emit]
  rw [emitGo_behThrow throws e (pre ++ t :: post).length 0 (pre ++ t :: post)
    [] (by omega)]
  rw [List.drop_zero, emitThrowTrace_append throws e pre t post hpre ht]
  simp

/-- Witness for C4 at a concrete input: listeners `[0, 1, 2]`, listener
`1` throws; `0` and `1` are invoked with the event, `2` is not, and the
exception escapes `emit`. -/
theorem emit_listener_throw_aborts_pass_witness :
    emit (behThrow fun l : Nat => l == 1) visibleEvent ([0] ++ 1 :: [2])
      = ([0] ++ 1 :: [2],
         ([0].map fun l => (l, visibleEvent)) ++ [(1, visibleEvent)], true) :=
  emit_listener_throw_aborts_pass (fun l => l == 1) visibleEvent [0] 1 [2]
    (by decide) (by decide)

/-- C5: `createEnvironment(factory)` returns exactly the value `factory()`
produced, with no transformation, and a factory that throws
(`Except.error`) has its exception propagate unchanged. -/
theorem createEnvironment_identity_passthrough {ε τ : Type}
    (constr : Unit → Except ε τ) :
    createEnvironment constr = constr ()
    ∧ (∀ v : τ,
        createEnvironment (fun _ => (Except.ok v : Except ε τ)) = Except.ok v)
    ∧ (∀ er : ε,
        createEnvironment (fun _ => (Except.error er : Except ε τ))
          = Except.error er) :=
  ⟨rfl, fun _ => rfl, fun _ => rfl⟩

/-- C6: subscribing the same callback reference `n` times yields `n`
entries; a disposer invoked while its listener is present removes exactly
the first remaining occurrence found by linear scan from the front; and
`n` subscribes of the same callback followed by `k ≤ n` disposer
invocations leave `n - k` entries. -/
theorem duplicate_subscriptions_independently_disposable {α : Type}
    [DecidableEq α] (l : α) :
    (∀ xs : List α, l ∈ xs → dispose xs l = xs.erase l)
    ∧ (∀ n : Nat,
        List.foldl subscribe [] (List.replicate n l) = List.replicate n l)
    ∧ (∀ n k : Nat, k ≤ n →
        (fun xs : List α => dispose xs l)^[k] (List.replicate n l)
          = List.replicate (n - k) l) := by
  refine ⟨fun xs h => dispose_of_mem h,
    fun n => by rw [foldl_subscribe]; simp, ?_⟩
  intro n k
  induction k generalizing n with
  | zero => intro _; simp
  | succ k ih =>
    intro hk
    obtain ⟨m, rfl⟩ : ∃ m, n = m + 1 := ⟨n - 1, by omega⟩
    rw [Function.iterate_succ_apply]
    have hstep : dispose (List.replicate (m + 1) l) l = List.replicate m l := by
      rw [List.replicate_succ]
      exact dispose_cons_self l (List.replicate m l)
    rw [hstep, ih m (by omega)]
    congr 1
    omega

/-- Witness for C6 at a concrete input: three subscriptions of callback
`5`; one disposal removes the first occurrence, two disposals leave one
entry. -/
theorem duplicate_subscriptions_independently_disposable_witness :
    dispose [5, 5, 5] 5 = List.erase [5, 5, 5] 5
    ∧ (fun xs : List Nat => dispose xs 5)^[2] (List.replicate 3 5)
        = List.replicate 1 5 :=
  ⟨(duplicate_subscriptions_independently_disposable 5).1 [5, 5, 5]
      (by decide),
   (duplicate_subscriptions_independently_disposable 5).2.2 3 2 (by decide)⟩

/-- C7: calling the reader with no enclosing Provider yields the null
sentinel seeded as the context's default — a value that is never a valid
environment `some t` — rather than raising an error at the read site;
under a Provider the reader yields the provided value instead. -/
theorem useEnvironment_without_provider_yields_sentinel (τ : Type) :
    useEnvironment τ [] = none
    ∧ (∀ t : τ, useEnvironment τ [] ≠ some t)
    ∧ (∀ (v : τ) (ps : List (Option τ)),
        useEnvironment τ (provideEnvironment v ps) = some v) :=
  ⟨rfl, fun _ h => Option.noConfusion h, fun _ _ => rfl⟩

/-- C8: invoking a disposer whose listener is no longer present in a
non-empty listener sequence removes the last remaining listener: the
linear scan returns `-1` and `splice(-1, 1)` deletes the final position. -/
theorem dispose_missing_listener_removes_last {α : Type} [DecidableEq α]
    (xs : List α) (l : α) (hne : xs ≠ []) (hnm : l ∉ xs) :
    dispose xs l = xs.dropLast ∧ (dispose xs l).length + 1 = xs.length := by
  have h := dispose_of_not_mem hnm
  refine ⟨h, ?_⟩
  rw [h, List.length_dropLast]
  have hpos : 0 < xs.length := List.length_pos.mpr hne
  omega

/-- Witness for C8 at a concrete input: disposing absent listener `0`
from `[1, 2]` removes `2`, the last listener. -/
theorem dispose_missing_listener_removes_last_witness :
    dispose [1, 2] 0 = List.dropLast [1, 2]
    ∧ (dispose [1, 2] 0).length + 1 = List.length [1, 2] :=
  dispose_missing_listener_removes_last [1, 2] 0 (by decide) (by decide)

/-- C9: invoking a disposer whose listener is present removes exactly one
entry (the length drops by one) and leaves every other entry and the
relative order of the remaining entries unchanged (the result is a
sublist of the original); `subscribe` appends exactly one entry at the
end, leaving all previously registered entries and their order
unchanged. -/
theorem dispose_frame_subscribe_append {α : Type} [DecidableEq α]
    (xs : List α) (l : α) (h : l ∈ xs) :
    (dispose xs l).length + 1 = xs.length
    ∧ List.Sublist (dispose xs l) xs
    ∧ subscribe xs l = xs ++ [l] := by
  have hd := dispose_of_mem h
  refine ⟨?_, ?_, rfl⟩
  · rw [hd, List.length_erase_of_mem h]
    have hpos : 0 < xs.length := List.length_pos.mpr (by rintro rfl; cases h)
    omega
  · rw [hd]
    exact List.erase_sublist l xs

/-- Witness for C9 at a concrete input: disposing `1` from `[1, 2]`
leaves `[2]`, a one-shorter sublist, and subscribing appends. -/
theorem dispose_frame_subscribe_append_witness :
    (dispose [1, 2] 1).length + 1 = List.length [1, 2]
    ∧ List.Sublist (dispose [1, 2] 1) [1, 2]
    ∧ subscribe [1, 2] 1 = [1, 2] ++ [1] :=
  dispose_frame_subscribe_append [1, 2] 1 (by decide)

/-- C10: `createEnvironment` invokes the supplied factory exactly once per
call: it is the single application of the factory to the caller's state,
so a factory that counts its own invocations is advanced by exactly one. -/
theorem createEnvironment_invokes_factory_once {σ τ : Type}
    (constr : σ → σ × τ) (s : σ) :
    createEnvironmentSt constr s = constr s
    ∧ ∀ (v : τ) (n : Nat),
        createEnvironmentSt (fun m => (m + 1, v)) n = (n + 1, v) :=
  ⟨rfl, fun _ _ => rfl⟩

end EnvInterface
